import Mathlib

/-!
Verification of the string-tension-calculator core.

The source is a TypeScript frontend; the computational core lives in
`src/frontend/src/utils/tension.ts` (the file shipped as `src/unnamed/part_004`):
`noteToFreq`, `tensionFromMu`, `calcTension`, `resolveScales`,
`resolveStringTypes`, `recommendGauge`, together with the inventory analysis
`buildGaugeUsages` in `src/frontend/src/pages/Summary.tsx` and the
backend optimizer (reachable only through the HTTP stub `optimizeGauges`
in `src/frontend/src/services/api.ts`, hence modelled from the spec).

Embedding conventions:
* JavaScript numbers are modelled as exact rationals (`ℚ`).  Where the
  special values `NaN` / `Infinity` are reachable and observable we use the
  inductive wrapper `JSNum` which has explicit `nan` / `inf` constructors and
  arithmetic following the IEEE rules for those constructors.
* The gauge → unit-weight tables live in a `constants` module that is not part
  of the shipped sources; they are therefore treated as parameters
  (`Catalog := List (ℚ × ℚ)`, an ordered association list, exactly the shape
  the spec gives them: an ordered mapping gauge ↦ μ).  JavaScript object
  lookup `table[gauge]` is `lookupMu`; `table[gauge] || 0` is
  `(lookupMu t g).getD 0` (a stored μ of 0 is falsy in JS and also yields 0,
  so `getD 0` is exact).
* `noteToFreq` returns `440 * 2 ^ (semitones / 12)` Hz, an irrational number;
  since `s ↦ 440·2^(s/12)` is injective we represent the returned frequency
  by its integer semitone offset (`FreqVal.freq s`), and the result of
  NaN-propagating arithmetic by `FreqVal.nan`.
-/

namespace StringTensionCalc

/-! Section: JavaScript numbers with explicit NaN / Infinity -/

/-- A JavaScript double, restricted to the values reachable in this program:
an exact rational, `NaN`, or a signed infinity (`inf true` is `+∞`). -/
inductive JSNum : Type where
  | num (q : ℚ)
  | nan
  | inf (pos : Bool)
deriving DecidableEq

/-- JS addition on `JSNum` (IEEE rules for the special constructors). -/
def jsAdd : JSNum → JSNum → JSNum
  | .num a, .num b => .num (a + b)
  | .inf p, .num _ => .inf p
  | .num _, .inf p => .inf p
  | .inf p, .inf q => if p = q then .inf p else .nan
  | _, _ => .nan

/-- JS subtraction on `JSNum`. -/
def jsSub : JSNum → JSNum → JSNum
  | .num a, .num b => .num (a - b)
  | .inf p, .num _ => .inf p
  | .num _, .inf p => .inf (!p)
  | .inf p, .inf q => if p = q then .nan else .inf p
  | _, _ => .nan

/-- JS multiplication on `JSNum`. -/
def jsMul : JSNum → JSNum → JSNum
  | .num a, .num b => .num (a * b)
  | .inf p, .num b => if b = 0 then .nan else .inf (p = decide (0 < b))
  | .num a, .inf p => if a = 0 then .nan else .inf (p = decide (0 < a))
  | .inf p, .inf q => .inf (p = q)
  | _, _ => .nan

/-- JS division on `JSNum` (`0/0 = NaN`, `x/0 = ±∞` for `x ≠ 0`). -/
def jsDiv : JSNum → JSNum → JSNum
  | .num a, .num b =>
      if b = 0 then (if a = 0 then .nan else .inf (decide (0 < a)))
      else .num (a / b)
  | .inf p, .num b => .inf (p = decide (0 ≤ b))
  | .num _, .inf _ => .num 0
  | _, _ => .nan

/-- JS strict `<` on `JSNum`; any comparison involving `NaN` is `false`. -/
def jsLt : JSNum → JSNum → Bool
  | .num a, .num b => decide (a < b)
  | .num _, .inf p => p
  | .inf p, .num _ => !p
  | .inf p, .inf q => !p && q
  | _, _ => false

/-- JS `≤` on `JSNum`; any comparison involving `NaN` is `false`. -/
def jsLe : JSNum → JSNum → Bool
  | .num a, .num b => decide (a ≤ b)
  | .num _, .inf p => p
  | .inf p, .num _ => !p
  | .inf p, .inf q => p = q || (!p && q)
  | _, _ => false

/-- Source `Math.abs` on `JSNum`. -/
def jsAbs : JSNum → JSNum
  | .num a => .num |a|
  | .nan => .nan
  | .inf _ => .inf true

/-- Source `Math.floor` on `JSNum`. -/
def jsFloor : JSNum → JSNum
  | .num a => .num (⌊a⌋ : ℤ)
  | x => x

/-- Source `Math.ceil` on `JSNum`. -/
def jsCeil : JSNum → JSNum
  | .num a => .num (⌈a⌉ : ℤ)
  | x => x

@[simp] theorem jsAdd_num (a b : ℚ) : jsAdd (.num a) (.num b) = .num (a + b) := rfl

@[simp] theorem jsSub_num (a b : ℚ) : jsSub (.num a) (.num b) = .num (a - b) := rfl

@[simp] theorem jsMul_num (a b : ℚ) : jsMul (.num a) (.num b) = .num (a * b) := rfl

theorem jsDiv_num (a b : ℚ) (hb : b ≠ 0) :
    jsDiv (.num a) (.num b) = .num (a / b) := by
  simp [jsDiv, hb]

/-! Section: String classes and gauge catalogs -/

/-- The string class tag `'p' | 'w'` from the source. -/
inductive SType : Type where
  | p
  | w
deriving DecidableEq

/-- A gauge catalog: the spec's ordered mapping from gauge value to unit
weight μ (`GaugeTable`, §3).  The `constants` module holding the two concrete
tables is not under `src/`, so the tables are parameters throughout. -/
abbrev Catalog := List (ℚ × ℚ)

/-- JavaScript object lookup `table[gauge]`: the first entry with the given
key, `none` when absent (JS `undefined`). -/
def lookupMu (table : Catalog) (gauge : ℚ) : Option ℚ :=
  (table.find? (fun e => e.1 = gauge)).map (fun e => e.2)

/-- Source `stype === 'p' ? PLAIN_UNIT_WEIGHTS : WOUND_UNIT_WEIGHTS` — the class
dispatch used by `calcTension` and `recommendGauge`. -/
def classTable (plainTab woundTab : Catalog) : SType → Catalog
  | .p => plainTab
  | .w => woundTab

/-! Section: tension.ts: tensionFromMu, calcTension -/

/-- Source `tensionFromMu(mu, scale, freq) = (2*scale*freq)^2 * mu / 386.4`
(tension.ts line 38). -/
def tensionFromMu (mu scale freq : ℚ) : ℚ :=
  (2 * scale * freq) ^ 2 * mu / (386.4 : ℚ)

/-- The body of `calcTension` for a fixed table:
`tensionFromMu(table[gauge] || 0, scale, freq)`. -/
def calcTensionT (table : Catalog) (gauge scale freq : ℚ) : ℚ :=
  tensionFromMu ((lookupMu table gauge).getD 0) scale freq

/-- Source `calcTension(gauge, stype, scale, freq)` (tension.ts lines 44–53): pick
the class table, look the gauge up with fallback 0, apply `tensionFromMu`. -/
def calcTension (plainTab woundTab : Catalog) (gauge : ℚ) (stype : SType)
    (scale freq : ℚ) : ℚ :=
  calcTensionT (classTable plainTab woundTab stype) gauge scale freq

/-! Section: tension.ts: resolveScales -/

/-- The `scale` input: `number | [number, number]`. -/
inductive ScaleSpec : Type where
  | single (s : ℚ)
  | pair (treble bass : ℚ)
deriving DecidableEq

/-- Source `resolveScales(scale, nStrings)` (tension.ts lines 61–73).  The pair
branch computes `treble + (bass - treble) * i / (nStrings - 1)` with
JavaScript number semantics (left-associated, so for `nStrings = 1` this is
`0 / 0 = NaN`). -/
def resolveScales (scale : ScaleSpec) (nStrings : ℕ) : List JSNum :=
  match scale with
  | .single s => List.replicate nStrings (.num s)
  | .pair treble bass =>
      (List.range nStrings).map (fun i : ℕ =>
        jsAdd (.num treble)
          (jsDiv (jsMul (jsSub (.num bass) (.num treble)) (.num (i : ℚ)))
            (.num ((nStrings : ℚ) - 1))))

/-! Section: tension.ts: resolveStringTypes -/

/-- Source `resolveStringTypes(stringTypes, nStrings)` (tension.ts lines 81–92).
A present override (JS non-null, including the empty array, which is truthy)
is returned verbatim; otherwise positions 0–2 are plain, the rest wound. -/
def resolveStringTypes (stringTypes : Option (List SType)) (nStrings : ℕ) :
    List SType :=
  match stringTypes with
  | some ts => ts
  | none => (List.range nStrings).map (fun i => if i < 3 then .p else .w)

/-! Section: tension.ts: noteToFreq -/

/-- The value returned by `noteToFreq`.  The source returns
`A4 * Math.pow(2, semitones / 12)` with `A4 = 440`; since `s ↦ 440·2^(s/12)`
is injective we carry the integer semitone offset from A4, and `nan` stands
for the propagated JavaScript `NaN` (unknown note name, or a non-digit
octave character). -/
inductive FreqVal : Type where
  | nan
  | freq (semitonesFromA4 : ℤ)
deriving DecidableEq

/-- Modelled from the spec: the enharmonic flat→sharp normalization table
(`FLAT_TO_SHARP`, §4.1) lives in the `constants` module, which is not under
`src/`; the spec fixes its meaning (flat spellings map to their sharp
equivalents). -/
def FLAT_TO_SHARP : List (String × String) :=
  [("Cb", "B"), ("Db", "C#"), ("Eb", "D#"), ("Fb", "E"), ("Gb", "F#"),
   ("Ab", "G#"), ("Bb", "A#")]

/-- Modelled from the spec: `NOTE_INDEX` (§4.1) lives in the missing
`constants` module.  Per the spec it is the semitone offset
`pitch_class_index - A_index`, i.e. A ↦ 0, so that `noteToFreq "A4" = 440`. -/
def NOTE_INDEX : List (String × ℤ) :=
  [("C", -9), ("C#", -8), ("D", -7), ("D#", -6), ("E", -5), ("F", -4),
   ("F#", -3), ("G", -2), ("G#", -1), ("A", 0), ("A#", 1), ("B", 2)]

/-- Source `parseInt(s, 10)` applied to `note.slice(-1)` — a string of at most one
character.  A digit parses to its value; anything else (including the empty
string) gives `NaN`, modelled as `none`. -/
def parseIntDigit (s : String) : Option ℤ :=
  match s.toList with
  | [c] => if c.isDigit then some ((c.toNat - '0'.toNat : ℕ) : ℤ) else none
  | _ => none

/-- Source `note.slice(-1)`: the final character of the token as a string. -/
def lastCharSlice (s : String) : String :=
  match s.toList.getLast? with
  | some c => String.mk [c]
  | none => ""

/-- Source `if (name in FLAT_TO_SHARP) name = FLAT_TO_SHARP[name]` — flat spellings
are replaced by their sharp equivalent, anything else passes through. -/
def normalizeName (name0 : String) : String :=
  ((FLAT_TO_SHARP.find? (fun e => e.1 = name0)).map (fun e => e.2)).getD name0

/-- The body of `noteToFreq` after the slicing: normalize a flat spelling,
look the name up in `NOTE_INDEX`, and combine with the parsed octave.
If either lookup fails the JavaScript code computes `undefined + …` or
`… + (NaN - 4) * 12`, producing `NaN`. -/
def noteToFreqCore (name0 : String) (octave : Option ℤ) : FreqVal :=
  match NOTE_INDEX.find? (fun e => e.1 = normalizeName name0), octave with
  | some e, some oct => .freq (e.2 + (oct - 4) * 12)
  | _, _ => .nan

/-- Source `noteToFreq(note)` (tension.ts lines 18–28):
`name = note.slice(0, -1)`, `octave = parseInt(note.slice(-1), 10)` — i.e.
the final character alone is the octave, everything before it the name. -/
def noteToFreq (note : String) : FreqVal :=
  noteToFreqCore (String.mk note.toList.dropLast) (parseIntDigit (lastCharSlice note))

/-- Modelled from the spec: the PitchResolver described in §4.1/§7 — the
repository's backend component that validates note tokens and raises
`InvalidNoteError` — is not under `src/`.  This definition follows the
spec's words: parse `<letter>[accidental]<octave>` with an integer octave,
fail with the error when the name is unrecognized or the octave is not an
integer. -/
def specPitchResolver (note : String) : Except String ℤ :=
  let cs := note.toList
  let nameChars := cs.takeWhile (fun c => !c.isDigit)
  let octChars := cs.dropWhile (fun c => !c.isDigit)
  let name0 := String.mk nameChars
  let name := ((FLAT_TO_SHARP.find? (fun e => e.1 = name0)).map
      (fun e => e.2)).getD name0
  if octChars = [] ∨ !octChars.all (fun c => c.isDigit) then
    .error "InvalidNoteError"
  else
    match NOTE_INDEX.find? (fun e => e.1 = name) with
    | none => .error "InvalidNoteError"
    | some e =>
        let oct : ℤ := octChars.foldl (fun a c => a * 10 + ((c.toNat - '0'.toNat : ℕ) : ℤ)) 0
        .ok (e.2 + (oct - 4) * 12)

/-! Section: tension.ts: recommendGauge

The source keeps, in both of its loops, a running best candidate replaced
only on a strictly smaller error (`if (error < bestError)`), i.e. a
first-encountered argmin.  `pickStep` is that loop body; the lemmas about
`List.foldl (pickStep e)` below are shared by both branches. -/

/-- One iteration of the `if (error < bestError)` selection loop. -/
def pickStep {α : Type} (e : α → ℚ) (best q : α) : α :=
  if e q < e best then q else best

/-- Source `recommendGauge(stype, scale, freq, target)` for a fixed class table
(tension.ts lines 121–170).  `GAUGES` is the key list of the unit-weight
table (the spec exposes each catalog as one ordered mapping, §6), so the
iteration over `gauges` with `mu = table[gauge]` is the iteration over the
catalog's (gauge, μ) entries.  The fallback loop's `bestError = Infinity`
start is carried as an `Option ℚ` that is `none` until the first iteration. -/
def recommendGaugeT (cat : Catalog) (scale freq : ℚ) (target : ℚ × ℚ) : ℚ :=
  let minT := target.1
  let maxT := target.2
  let midpoint := (minT + maxT) / 2
  let inRange : List (ℚ × ℚ) :=
    cat.foldl (fun acc gm =>
      let actual := tensionFromMu gm.2 scale freq
      if minT ≤ actual ∧ actual ≤ maxT then acc ++ [(gm.1, actual)] else acc) []
  match inRange with
  | best0 :: _ =>
      (inRange.foldl (pickStep (fun p => |p.2 - midpoint|)) best0).1
  | [] =>
      (cat.foldl (fun best gm =>
          let actual := tensionFromMu gm.2 scale freq
          let error := |actual - midpoint|
          match best.2 with
          | none => (gm.1, some error)
          | some bestError =>
              if error < bestError then (gm.1, some error) else best)
        (((cat.headD (0, 0)).1 : ℚ), (none : Option ℚ))).1

/-- Source `recommendGauge` with the class dispatch of the source. -/
def recommendGauge (plainTab woundTab : Catalog) (stype : SType)
    (scale freq : ℚ) (target : ℚ × ℚ) : ℚ :=
  recommendGaugeT (classTable plainTab woundTab stype) scale freq target

/-! Section: Data model (types.ts) -/

/-- The `Guitar` record from types.ts. -/
structure Guitar : Type where
  name : String
  n_strings : ℕ
  scale : ScaleSpec
  tuning : List String
  string_types : Option (List SType)
  target_plain : ℚ × ℚ
  target_wound : ℚ × ℚ

/-- The `StringSelection` record from types.ts (`type` is a Lean keyword, so
the field is `stype`). -/
structure StringSelection : Type where
  gauge : ℚ
  stype : SType
deriving DecidableEq

/-- Source `GuitarSelections`, indexed by guitar position; a missing key reads as
`[]` (`selections[gIdx.toString()] || []`), and array holes inside one
guitar's selection list (JS `undefined` entries) are `none`. -/
abbrev Selections := List (List (Option StringSelection))

/-! Section: Summary.tsx: buildGaugeUsages -/

/-- The `UsageInfo` record of Summary.tsx.  `scale` is `scales[sIdx]`, which
is JS `undefined` when `sIdx` exceeds the resolved list; `undefined` used in
arithmetic is `NaN`, so the out-of-bounds read is carried as `JSNum.nan`.
`freq` is the numeric value of `noteToFreq(note)` — an irrational real the
rational embedding cannot hold, so the whole analysis is parametrized by an
arbitrary frequency map `freqOf : String → JSNum` (no claim below depends on
the numeric frequencies). -/
structure UsageInfo : Type where
  guitarIdx : ℕ
  guitarName : String
  stringIdx : ℕ
  scale : JSNum
  freq : JSNum
  target : ℚ × ℚ

/-- The `SwapOption` record of Summary.tsx; `direction` is `up = true`,
`requiredBound` carries `(isMin, value)`. -/
structure SwapOption : Type where
  gauge : ℚ
  newTension : JSNum
  currentTension : JSNum
  tensionShift : JSNum
  up : Bool
  targetMin : ℚ
  targetMax : ℚ
  inRange : Bool
  requiredBound : Option (Bool × JSNum)

/-- The `GaugeUsageWithSwap` record of Summary.tsx. -/
structure GaugeUsage : Type where
  gauge : ℚ
  stype : SType
  count : ℕ
  usages : List UsageInfo
  swapOption : Option SwapOption

/-- The body of the first-pass double loop of `buildGaugeUsages`
(Summary.tsx lines 93–128) flattened into the sequence of
(gauge, type, usage-info) triples it feeds to the usage map, in loop order:
guitars by index, strings by index over `guitarSel = selections[gIdx] || []`,
entries with a missing selection or falsy gauge (`!sel?.gauge`) skipped. -/
def guitarEntries (selections : Selections) (freqOf : String → JSNum)
    (gIdx : ℕ) (guitar : Guitar) : List (ℚ × SType × UsageInfo) :=
  let guitarSel := selections.getD gIdx []
  let scales := resolveScales guitar.scale guitar.n_strings
  guitarSel.enum.filterMap (fun si =>
    match si.2 with
    | none => none
    | some sel =>
        if sel.gauge = 0 then none
        else
          let sIdx := si.1
          let note := if guitar.tuning.getD sIdx "" = "" then "E4"
                      else guitar.tuning.getD sIdx ""
          some (sel.gauge, sel.stype,
            { guitarIdx := gIdx
              guitarName := guitar.name
              stringIdx := sIdx
              scale := scales.getD sIdx JSNum.nan
              freq := freqOf note
              target := match sel.stype with
                        | .p => guitar.target_plain
                        | .w => guitar.target_wound }))

def usageEntries (guitars : List Guitar) (selections : Selections)
    (freqOf : String → JSNum) : List (ℚ × SType × UsageInfo) :=
  guitars.enum.flatMap (fun gi => guitarEntries selections freqOf gi.1 gi.2)

/-- One usage-map update of the first pass: find the group keyed
`gauge + '-' + type` (the key determines exactly the (gauge, type) pair),
create it with count 0 if absent, then `count++` and push the usage info. -/
def addUsage (groups : List GaugeUsage) (gauge : ℚ) (stype : SType)
    (info : UsageInfo) : List GaugeUsage :=
  if groups.any (fun u => u.gauge = gauge ∧ u.stype = stype) then
    groups.map (fun u =>
      if u.gauge = gauge ∧ u.stype = stype then
        { u with count := u.count + 1, usages := u.usages ++ [info] }
      else u)
  else
    groups ++ [{ gauge := gauge, stype := stype, count := 1, usages := [info],
                 swapOption := none }]

/-- Source `calcTension` evaluated at general JS values, as the swap search does
(its `scale` can be the `NaN` of an out-of-bounds `scales[sIdx]`).  Same
source function (tension.ts lines 37–53), lifted through `JSNum`. -/
def calcTensionJS (table : Catalog) (gauge : ℚ) (scale freq : JSNum) : JSNum :=
  let mu : ℚ := (lookupMu table gauge).getD 0
  jsDiv (jsMul (jsMul (jsMul (jsMul (.num 2) scale) freq)
                       (jsMul (jsMul (.num 2) scale) freq))
               (.num mu))
    (.num (386.4 : ℚ))

/-- The body of the swap-search loop of `buildGaugeUsages` (Summary.tsx
lines 158–198): skip non-common groups, other classes, the singleton's own
gauge, and gauges with falsy μ; otherwise compute the tension shift and keep
the candidate on a strictly smaller deviation. -/
def swapStep (table : Catalog) (stype : SType) (selfGauge : ℚ)
    (currentTension : JSNum) (scale freq : JSNum) (target : ℚ × ℚ)
    (acc : Option SwapOption × JSNum) (other : GaugeUsage) :
    Option SwapOption × JSNum :=
  if other.count ≤ 1 then acc
  else if other.stype ≠ stype then acc
  else if other.gauge = selfGauge then acc
  else if (lookupMu table other.gauge).getD 0 = 0 then acc
  else
    let newTension := calcTensionJS table other.gauge scale freq
    let tensionShift := jsSub newTension currentTension
    let deviation := jsAbs tensionShift
    if jsLt deviation acc.2 then
      let inR := jsLe (.num target.1) newTension && jsLe newTension (.num target.2)
      let requiredBound : Option (Bool × JSNum) :=
        if inR then none
        else if jsLt newTension (.num target.1) then
          some (true, jsDiv (jsFloor (jsMul newTension (.num 2))) (.num 2))
        else
          some (false, jsDiv (jsCeil (jsMul newTension (.num 2))) (.num 2))
      (some { gauge := other.gauge
              newTension := newTension
              currentTension := currentTension
              tensionShift := tensionShift
              up := jsLt (.num 0) tensionShift
              targetMin := target.1
              targetMax := target.2
              inRange := inR
              requiredBound := requiredBound },
       deviation)
    else acc

/-- The swap search for one singleton group (Summary.tsx lines 141–203):
take the single string's context (`stringUsages[0]`) and scan all groups
with `minDeviation` starting at `Infinity`. -/
def findSwap (plainTab woundTab : Catalog) (usages : List GaugeUsage)
    (u : GaugeUsage) : Option SwapOption :=
  match u.usages with
  | [] => none
  | info :: _ =>
      let table := classTable plainTab woundTab u.stype
      let currentTension := calcTensionJS table u.gauge info.scale info.freq
      (usages.foldl
        (swapStep table u.stype u.gauge currentTension info.scale info.freq
          info.target)
        (none, .inf true)).1

/-- Stable insertion of a group into a gauge-ascending list — the sort step
of `usages.sort((a, b) => a.gauge - b.gauge)` (JS `sort` is stable and here
orders by ascending gauge). -/
def insertByGauge (u : GaugeUsage) : List GaugeUsage → List GaugeUsage
  | [] => [u]
  | v :: vs => if v.gauge ≤ u.gauge then v :: insertByGauge u vs else u :: v :: vs

/-- Source `usages.sort((a, b) => a.gauge - b.gauge)` as a stable insertion sort. -/
def sortByGauge : List GaugeUsage → List GaugeUsage
  | [] => []
  | u :: us => insertByGauge u (sortByGauge us)

/-- Source `buildGaugeUsages` (Summary.tsx lines 89–206): first pass builds the
usage groups, the second pass attaches a swap option to every group with
`count == 1`, and the result is sorted by ascending gauge. -/
def buildGaugeUsages (plainTab woundTab : Catalog) (guitars : List Guitar)
    (selections : Selections) (freqOf : String → JSNum) : List GaugeUsage :=
  let groups := (usageEntries guitars selections freqOf).foldl
    (fun acc e => addUsage acc e.1 e.2.1 e.2.2) []
  let groups2 := groups.map (fun u =>
    if u.count ≠ 1 then u
    else { u with swapOption := findSwap plainTab woundTab groups u })
  sortByGauge groups2

/-- The sum of the `count` fields of a usage-group list. -/
def sumCounts (groups : List GaugeUsage) : ℕ :=
  (groups.map (fun u => u.count)).sum

/-- The total number of strings across all instruments. -/
def totalStrings (guitars : List Guitar) : ℕ :=
  (guitars.map (fun g => g.n_strings)).sum

/-! Section: GlobalOptimizer (modelled from the spec)

The frontend only posts to `/api/optimize` (`optimizeGauges`,
src/frontend/src/services/api.ts lines 25–38); the backend implementing the
optimizer is not under `src/`.  The definitions in this section are modelled
from the spec, §4.7: three ordered passes over the working selection set.
A string's resolved context (class, scale, frequency, target range — the
spec's `StringContext`, §3) is `StrCtx`; a working selection set is the list
of per-string (context, gauge) pairs. -/

/-- Modelled from the spec: the resolved per-string context (`StringContext`,
§3) the optimizer works over. -/
structure StrCtx : Type where
  stype : SType
  scale : ℚ
  freq : ℚ
  target : ℚ × ℚ
deriving DecidableEq

/-- A working selection set: one (context, gauge) pair per string. -/
abbrev Assignment := List (StrCtx × ℚ)

/-- The (gauge, class) pair of every string of an assignment. -/
def pairsOf (l : Assignment) : List (ℚ × SType) :=
  l.map (fun e => (e.2, e.1.stype))

/-- The number of distinct (gauge, class) pairs in use. -/
def distinctCount (l : Assignment) : ℕ :=
  (pairsOf l).dedup.length

/-- The tension of a string at its own context (source `calcTension`). -/
def strTension (plainTab woundTab : Catalog) (c : StrCtx) (g : ℚ) : ℚ :=
  calcTension plainTab woundTab g c.stype c.scale c.freq

/-- Source `isInRange` (tension.ts lines 208–210) at a string's own target. -/
def ctxInRange (plainTab woundTab : Catalog) (c : StrCtx) (g : ℚ) : Prop :=
  c.target.1 ≤ strTension plainTab woundTab c g ∧
    strTension plainTab woundTab c g ≤ c.target.2

instance (plainTab woundTab : Catalog) (c : StrCtx) (g : ℚ) :
    Decidable (ctxInRange plainTab woundTab c g) := by
  unfold ctxInRange; infer_instance

/-- Modelled from the spec: pass 1 (**Repair**, §4.7) — every string whose
current tension is outside its target range gets the source
`recommendGauge` for its own context; in-range strings are untouched. -/
def repair (plainTab woundTab : Catalog) (l : Assignment) : Assignment :=
  l.map (fun e =>
    if ctxInRange plainTab woundTab e.1 e.2 then e
    else (e.1, recommendGauge plainTab woundTab e.1.stype e.1.scale e.1.freq
      e.1.target))

/-- Modelled from the spec: the common gauges of a class (usage count > 1)
other than the singleton's own gauge, in first-occurrence order
(InventoryAnalyzer, §4.6). -/
def commonCandidates (l : Assignment) (stype : SType) (selfGauge : ℚ) :
    List ℚ :=
  ((pairsOf l).dedup.filter (fun pr =>
    pr.2 = stype ∧ pr.1 ≠ selfGauge ∧ 1 < (pairsOf l).count pr)).map
    (fun pr => pr.1)

/-- Modelled from the spec: the swap candidate for a singleton — the common
gauge of the same class whose tension at the singleton's own context
deviates least (in absolute value) from the singleton's current tension
(§4.6); first encountered wins ties, as in the source's swap search. -/
def bestSwapGauge (plainTab woundTab : Catalog) (l : Assignment) (c : StrCtx)
    (selfGauge : ℚ) : Option ℚ :=
  let cur := strTension plainTab woundTab c selfGauge
  match commonCandidates l c.stype selfGauge with
  | [] => none
  | c0 :: cs =>
      some ((c0 :: cs).foldl
        (pickStep (fun g => |strTension plainTab woundTab c g - cur|)) c0)

/-- Modelled from the spec: try to consolidate the string at position `i` —
it must be a singleton, have a candidate, and the candidate must keep it in
range (pass 2, §4.7). -/
def trySwapAt (plainTab woundTab : Catalog) (l : Assignment) (i : ℕ) :
    Option Assignment :=
  match l.get? i with
  | none => none
  | some e =>
      if (pairsOf l).count (e.2, e.1.stype) = 1 then
        match bestSwapGauge plainTab woundTab l e.1 e.2 with
        | none => none
        | some g' =>
            if ctxInRange plainTab woundTab e.1 g' then
              some (l.set i (e.1, g'))
            else none
      else none

/-- Modelled from the spec: one successful consolidating swap, at the first
string position admitting one. -/
def consolidateOnce (plainTab woundTab : Catalog) (l : Assignment) :
    Option Assignment :=
  (List.range l.length).findSome? (trySwapAt plainTab woundTab l)

/-- Modelled from the spec: passes 2 and 3 (§4.7) — apply consolidating
swaps to a fixed point.  Each successful swap strictly reduces the number of
singleton groups, so `l.length` steps of fuel always reach the fixed
point. -/
def consolidate (plainTab woundTab : Catalog) : ℕ → Assignment → Assignment
  | 0, l => l
  | fuel + 1, l =>
      match consolidateOnce plainTab woundTab l with
      | some l' => consolidate plainTab woundTab fuel l'
      | none => l

/-- Modelled from the spec: `optimize` (§4.7) — repair, then consolidate to
a fixed point. -/
def optimize (plainTab woundTab : Catalog) (l : Assignment) : Assignment :=
  consolidate plainTab woundTab l.length (repair plainTab woundTab l)

/-! Section: Lemmas about the first-encountered argmin loop -/

theorem pickStep_le_left {α : Type} (e : α → ℚ) (b q : α) :
    e (pickStep e b q) ≤ e b := by
  unfold pickStep
  split
  · exact le_of_lt (by assumption)
  · exact le_refl _

theorem pickStep_le_right {α : Type} (e : α → ℚ) (b q : α) :
    e (pickStep e b q) ≤ e q := by
  unfold pickStep
  split
  · exact le_refl _
  · exact le_of_not_lt (by assumption)

theorem foldl_pickStep_mem {α : Type} (e : α → ℚ) :
    ∀ (ps : List α) (p : α), ps.foldl (pickStep e) p ∈ p :: ps := by
  intro ps
  induction ps with
  | nil => intro p; simp
  | cons q qs ih =>
      intro p
      simp only [List.foldl_cons]
      have h := ih (pickStep e p q)
      have hcases : pickStep e p q = q ∨ pickStep e p q = p := by
        unfold pickStep; split
        · exact Or.inl rfl
        · exact Or.inr rfl
      rcases hcases with hp | hp <;> rw [hp] at h ⊢ <;>
        rcases List.mem_cons.mp h with h1 | h1 <;>
          simp [h1, List.mem_cons]

theorem foldl_pickStep_le {α : Type} (e : α → ℚ) :
    ∀ (ps : List α) (p : α), ∀ x ∈ p :: ps,
      e (ps.foldl (pickStep e) p) ≤ e x := by
  intro ps
  induction ps with
  | nil =>
      intro p x hx
      rcases List.mem_cons.mp hx with h | h
      · rw [h]; simp
      · simp at h
  | cons q qs ih =>
      intro p x hx
      simp only [List.foldl_cons]
      rcases List.mem_cons.mp hx with h | h
      · calc e ((qs.foldl (pickStep e) (pickStep e p q)))
            ≤ e (pickStep e p q) := ih (pickStep e p q) _ (List.mem_cons_self _ _)
          _ ≤ e p := pickStep_le_left e p q
          _ = e x := by rw [h]
      · rcases List.mem_cons.mp h with h2 | h2
        · calc e ((qs.foldl (pickStep e) (pickStep e p q)))
              ≤ e (pickStep e p q) := ih (pickStep e p q) _ (List.mem_cons_self _ _)
            _ ≤ e q := pickStep_le_right e p q
            _ = e x := by rw [h2]
        · exact ih (pickStep e p q) x (List.mem_cons.mpr (Or.inr h2))

theorem foldl_pickStep_init_or_lt {α : Type} (e : α → ℚ) :
    ∀ (ps : List α) (p : α),
      ps.foldl (pickStep e) p = p ∨ e (ps.foldl (pickStep e) p) < e p := by
  intro ps
  induction ps with
  | nil => intro p; exact Or.inl rfl
  | cons q qs ih =>
      intro p
      simp only [List.foldl_cons]
      by_cases hc : e q < e p
      · right
        rw [pickStep, if_pos hc]
        rcases ih q with h | h
        · rw [h]; exact hc
        · exact lt_trans h hc
      · rw [pickStep, if_neg hc]
        exact ih p

/-- The loop keeps the first candidate attaining the minimal error: with
strictly increasing keys along the list, the winner's key is least among all
elements of equal error. -/
theorem foldl_pickStep_first {α : Type} (e : α → ℚ) (k : α → ℚ) :
    ∀ (ps : List α) (p : α),
      (p :: ps).Pairwise (fun a b => k a < k b) →
      ∀ x ∈ p :: ps, e x = e (ps.foldl (pickStep e) p) →
        k (ps.foldl (pickStep e) p) ≤ k x := by
  intro ps
  induction ps with
  | nil =>
      intro p _ x hx hex
      rcases List.mem_cons.mp hx with h | h
      · rw [h]; simp
      · simp at h
  | cons q qs ih =>
      intro p hpair x hx hex
      simp only [List.foldl_cons] at hex ⊢
      by_cases hc : e q < e p
      · rw [pickStep, if_pos hc] at hex ⊢
        rcases List.mem_cons.mp hx with h | h
        · exfalso
          have hle : e (qs.foldl (pickStep e) q) ≤ e q :=
            foldl_pickStep_le e qs q q (List.mem_cons_self _ _)
          rw [h] at hex
          rw [hex] at hc
          exact absurd (lt_of_le_of_lt hle hc) (lt_irrefl _)
        · exact ih q (List.Pairwise.of_cons hpair) x h hex
      · rw [pickStep, if_neg hc] at hex ⊢
        have hsub : (p :: qs).Sublist (p :: q :: qs) :=
          List.Sublist.cons₂ p (List.sublist_cons_self q qs)
        have hpair2 : (p :: qs).Pairwise (fun a b => k a < k b) :=
          hpair.sublist hsub
        rcases List.mem_cons.mp hx with h | h
        · exact ih p hpair2 x (by rw [h]; exact List.mem_cons_self _ _) hex
        · rcases List.mem_cons.mp h with h2 | h2
          · rcases foldl_pickStep_init_or_lt e qs p with hr | hr
            · rw [hr]
              have : k p < k x := by
                rw [h2]
                exact (List.pairwise_cons.mp hpair).1 q (List.mem_cons_self _ _)
              exact le_of_lt this
            · exfalso
              have hpq : e p ≤ e q := le_of_not_lt hc
              rw [h2] at hex
              rw [hex] at hpq
              have := lt_of_le_of_lt hpq hr
              exact absurd this (lt_irrefl _)
          · exact ih p hpair2 x (List.mem_cons.mpr (Or.inr h2)) hex

/-! Section: Characterizing recommendGauge -/

/-- The list of in-range (gauge, tension) pairs the first loop of
`recommendGauge` pushes, in catalog order. -/
def inRangeList (cat : Catalog) (scale freq minT maxT : ℚ) : List (ℚ × ℚ) :=
  (cat.filter (fun gm =>
    decide (minT ≤ tensionFromMu gm.2 scale freq ∧
      tensionFromMu gm.2 scale freq ≤ maxT))).map
    (fun gm => (gm.1, tensionFromMu gm.2 scale freq))

theorem mem_inRangeList {cat : Catalog} {scale freq minT maxT : ℚ}
    {p : ℚ × ℚ} :
    p ∈ inRangeList cat scale freq minT maxT ↔
      ∃ gm ∈ cat, (minT ≤ tensionFromMu gm.2 scale freq ∧
        tensionFromMu gm.2 scale freq ≤ maxT) ∧
        p = (gm.1, tensionFromMu gm.2 scale freq) := by
  unfold inRangeList
  constructor
  · intro h
    rcases List.mem_map.mp h with ⟨gm, hgm, hp⟩
    rcases List.mem_filter.mp hgm with ⟨hmem, hdec⟩
    exact ⟨gm, hmem, of_decide_eq_true hdec, hp.symm⟩
  · rintro ⟨gm, hmem, hcond, hp⟩
    exact List.mem_map.mpr ⟨gm, List.mem_filter.mpr ⟨hmem, decide_eq_true hcond⟩,
      hp.symm⟩

theorem foldl_inRange_eq (scale freq minT maxT : ℚ) :
    ∀ (cat : Catalog) (acc : List (ℚ × ℚ)),
      cat.foldl (fun acc gm =>
        if minT ≤ tensionFromMu gm.2 scale freq ∧
            tensionFromMu gm.2 scale freq ≤ maxT then
          acc ++ [(gm.1, tensionFromMu gm.2 scale freq)]
        else acc) acc
      = acc ++ inRangeList cat scale freq minT maxT := by
  intro cat
  induction cat with
  | nil => intro acc; simp [inRangeList]
  | cons gm cs ih =>
      intro acc
      simp only [List.foldl_cons]
      by_cases hc : minT ≤ tensionFromMu gm.2 scale freq ∧
          tensionFromMu gm.2 scale freq ≤ maxT
      · rw [if_pos hc, ih]
        simp [inRangeList, List.filter_cons, hc]
      · rw [if_neg hc, ih]
        simp [inRangeList, List.filter_cons, hc]

theorem foldl_fallback_eq (scale freq mid : ℚ) :
    ∀ (cs : List (ℚ × ℚ)) (q : ℚ × ℚ),
      cs.foldl (fun best gm =>
          match best.2 with
          | none => (gm.1, some (|tensionFromMu gm.2 scale freq - mid|))
          | some bestError =>
              if |tensionFromMu gm.2 scale freq - mid| < bestError then
                (gm.1, some (|tensionFromMu gm.2 scale freq - mid|))
              else best)
        (q.1, some (|tensionFromMu q.2 scale freq - mid|))
      = ((cs.foldl (pickStep
            (fun gm => |tensionFromMu gm.2 scale freq - mid|)) q).1,
         some (|tensionFromMu
            (cs.foldl (pickStep
              (fun gm => |tensionFromMu gm.2 scale freq - mid|)) q).2
            scale freq - mid|)) := by
  intro cs
  induction cs with
  | nil => intro q; rfl
  | cons gm cs ih =>
      intro q
      simp only [List.foldl_cons]
      by_cases hc : |tensionFromMu gm.2 scale freq - mid| <
          |tensionFromMu q.2 scale freq - mid|
      · rw [if_pos hc,
          show pickStep (fun gm => |tensionFromMu gm.2 scale freq - mid|) q gm
            = gm from by unfold pickStep; rw [if_pos hc]]
        exact ih gm
      · rw [if_neg hc,
          show pickStep (fun gm => |tensionFromMu gm.2 scale freq - mid|) q gm
            = q from by unfold pickStep; rw [if_neg hc]]
        exact ih q

theorem recommendGaugeT_of_inRange (cat : Catalog) (scale freq : ℚ)
    (target : ℚ × ℚ) {b0 : ℚ × ℚ} {bs : List (ℚ × ℚ)}
    (h : inRangeList cat scale freq target.1 target.2 = b0 :: bs) :
    recommendGaugeT cat scale freq target =
      (bs.foldl (pickStep
        (fun p => |p.2 - (target.1 + target.2) / 2|)) b0).1 := by
  simp only [recommendGaugeT]
  rw [foldl_inRange_eq, List.nil_append, h]
  simp only [List.foldl_cons]
  rw [show pickStep (fun p => |p.2 - (target.1 + target.2) / 2|) b0 b0 = b0 from
    by unfold pickStep; rw [if_neg (lt_irrefl _)]]

theorem recommendGaugeT_of_empty (cat : Catalog) (scale freq : ℚ)
    (target : ℚ × ℚ) {c0 : ℚ × ℚ} {cs : List (ℚ × ℚ)}
    (h : inRangeList cat scale freq target.1 target.2 = [])
    (hcat : cat = c0 :: cs) :
    recommendGaugeT cat scale freq target =
      (cs.foldl (pickStep
        (fun gm => |tensionFromMu gm.2 scale freq - (target.1 + target.2) / 2|))
        c0).1 := by
  simp only [recommendGaugeT]
  rw [foldl_inRange_eq, List.nil_append, h]
  subst hcat
  simp only [List.foldl_cons, List.headD]
  rw [foldl_fallback_eq scale freq ((target.1 + target.2) / 2) cs c0]

/-- With duplicate-free keys, `table[gauge]` of a catalog member's gauge is
that member's μ. -/
theorem lookupMu_of_nodup_mem :
    ∀ (cat : Catalog), (cat.map Prod.fst).Nodup →
      ∀ {g mu : ℚ}, (g, mu) ∈ cat → lookupMu cat g = some mu := by
  intro cat
  induction cat with
  | nil => intro _ g mu hm; simp at hm
  | cons e cs ih =>
      intro hnd g mu hm
      have hnd2 : e.1 ∉ cs.map Prod.fst ∧ (cs.map Prod.fst).Nodup := by
        rw [List.map_cons, List.nodup_cons] at hnd
        exact hnd
      by_cases hg : e.1 = g
      · have : (g, mu) = e ∨ (g, mu) ∈ cs := List.mem_cons.mp hm
        rcases this with h | h
        · unfold lookupMu
          rw [List.find?_cons_of_pos _ (by simp [hg])]
          rw [← h] at hg ⊢
          simp
        · exfalso
          apply hnd2.1
          rw [hg]
          exact List.mem_map.mpr ⟨(g, mu), h, rfl⟩
      · have : (g, mu) = e ∨ (g, mu) ∈ cs := List.mem_cons.mp hm
        rcases this with h | h
        · exfalso; apply hg; rw [← h]
        · unfold lookupMu
          rw [List.find?_cons_of_neg _ (by simp [hg])]
          exact ih hnd2.2 h

/-- Strictly increasing keys are duplicate-free. -/
theorem nodup_keys_of_sorted {cat : Catalog}
    (h : cat.Pairwise (fun a b => a.1 < b.1)) : (cat.map Prod.fst).Nodup := by
  rw [List.Nodup, List.pairwise_map]
  exact h.imp (fun hlt => ne_of_lt hlt)

theorem pairwise_keys_inRangeList {cat : Catalog} {scale freq minT maxT : ℚ}
    (hsorted : cat.Pairwise (fun a b => a.1 < b.1)) :
    (inRangeList cat scale freq minT maxT).Pairwise (fun a b => a.1 < b.1) := by
  unfold inRangeList
  rw [List.pairwise_map]
  exact (hsorted.filter _).imp (fun h => h)

theorem recommendGaugeT_inRange_correct (cat : Catalog) (scale freq : ℚ)
    (target : ℚ × ℚ) (hsorted : cat.Pairwise (fun a b => a.1 < b.1))
    (hex : ∃ gm ∈ cat, target.1 ≤ tensionFromMu gm.2 scale freq ∧
      tensionFromMu gm.2 scale freq ≤ target.2) :
    ∃ gm ∈ cat, recommendGaugeT cat scale freq target = gm.1
      ∧ (target.1 ≤ tensionFromMu gm.2 scale freq ∧
         tensionFromMu gm.2 scale freq ≤ target.2)
      ∧ ∀ q ∈ cat, target.1 ≤ tensionFromMu q.2 scale freq →
          tensionFromMu q.2 scale freq ≤ target.2 →
          (|tensionFromMu gm.2 scale freq - (target.1 + target.2) / 2| ≤
            |tensionFromMu q.2 scale freq - (target.1 + target.2) / 2|
          ∧ (|tensionFromMu q.2 scale freq - (target.1 + target.2) / 2| =
              |tensionFromMu gm.2 scale freq - (target.1 + target.2) / 2| →
              gm.1 ≤ q.1)) := by
  rcases hex with ⟨gm0, hgm0, hcond0⟩
  cases hIR : inRangeList cat scale freq target.1 target.2 with
  | nil =>
      exfalso
      have : (gm0.1, tensionFromMu gm0.2 scale freq) ∈
          inRangeList cat scale freq target.1 target.2 :=
        mem_inRangeList.mpr ⟨gm0, hgm0, hcond0, rfl⟩
      rw [hIR] at this
      simp at this
  | cons b0 bs =>
      have hrec := recommendGaugeT_of_inRange cat scale freq target hIR
      set e := fun p : ℚ × ℚ => |p.2 - (target.1 + target.2) / 2| with he
      set r := bs.foldl (pickStep e) b0 with hr
      have hmem : r ∈ b0 :: bs := foldl_pickStep_mem e bs b0
      have hmemIR : r ∈ inRangeList cat scale freq target.1 target.2 := by
        rw [hIR]; exact hmem
      rcases mem_inRangeList.mp hmemIR with ⟨gm, hgmcat, hgmcond, hreq⟩
      refine ⟨gm, hgmcat, ?_, hgmcond, ?_⟩
      · rw [hrec, hreq]
      · intro q hq hq1 hq2
        have hqIR : (q.1, tensionFromMu q.2 scale freq) ∈
            inRangeList cat scale freq target.1 target.2 :=
          mem_inRangeList.mpr ⟨q, hq, ⟨hq1, hq2⟩, rfl⟩
        rw [hIR] at hqIR
        constructor
        · have := foldl_pickStep_le e bs b0 _ hqIR
          rw [← hr] at this
          have hr2 : e r = |tensionFromMu gm.2 scale freq -
              (target.1 + target.2) / 2| := by
            rw [hreq]
          rw [hr2] at this
          exact this
        · intro htie
          have hpair : (b0 :: bs).Pairwise (fun a b : ℚ × ℚ => a.1 < b.1) := by
            rw [← hIR]
            exact pairwise_keys_inRangeList hsorted
          have := foldl_pickStep_first e Prod.fst bs b0 hpair _ hqIR (by
            rw [← hr]
            show e (q.1, tensionFromMu q.2 scale freq) = e r
            rw [hreq]
            exact htie)
          rw [← hr] at this
          rw [hreq] at this
          exact this

theorem recommendGaugeT_fallback_correct (cat : Catalog) (scale freq : ℚ)
    (target : ℚ × ℚ)
    (hempty : ∀ gm ∈ cat, ¬(target.1 ≤ tensionFromMu gm.2 scale freq ∧
      tensionFromMu gm.2 scale freq ≤ target.2))
    (hne : cat ≠ []) :
    ∃ gm ∈ cat, recommendGaugeT cat scale freq target = gm.1
      ∧ ∀ q ∈ cat,
          |tensionFromMu gm.2 scale freq - (target.1 + target.2) / 2| ≤
            |tensionFromMu q.2 scale freq - (target.1 + target.2) / 2| := by
  have hIR : inRangeList cat scale freq target.1 target.2 = [] := by
    rw [List.eq_nil_iff_forall_not_mem]
    intro p hp
    rcases mem_inRangeList.mp hp with ⟨gm, hgm, hcond, _⟩
    exact hempty gm hgm hcond
  obtain ⟨c0, cs, hcat⟩ : ∃ c0 cs, cat = c0 :: cs := by
    cases cat with
    | nil => exact absurd rfl hne
    | cons a l => exact ⟨a, l, rfl⟩
  have hrec := recommendGaugeT_of_empty cat scale freq target hIR hcat
  set e := fun gm : ℚ × ℚ =>
    |tensionFromMu gm.2 scale freq - (target.1 + target.2) / 2| with he
  set r := cs.foldl (pickStep e) c0 with hr
  have hmem : r ∈ c0 :: cs := foldl_pickStep_mem e cs c0
  refine ⟨r, by rw [hcat]; exact hmem, hrec, ?_⟩
  intro q hq
  rw [hcat] at hq
  exact foldl_pickStep_le e cs c0 q hq

/-- C1: for every string class, scale, frequency and target range, if some
catalog gauge's tension lies inside the target range then `recommendGauge`
returns a catalog gauge whose tension is in range and closest to the range
midpoint among all in-range catalog gauges, ties broken by
first-encountered catalog order, i.e. (catalogs being stored in ascending
gauge order) the smallest gauge; if no catalog gauge is in range, it
returns the catalog gauge whose tension is closest to the midpoint —
never farther from it than any other catalog entry of that class. -/
theorem C1_recommendGauge_correct (plainTab woundTab : Catalog)
    (stype : SType) (scale freq : ℚ) (target : ℚ × ℚ)
    (hsorted : (classTable plainTab woundTab stype).Pairwise
      (fun a b => a.1 < b.1)) :
    ((∃ gm ∈ classTable plainTab woundTab stype,
        target.1 ≤ tensionFromMu gm.2 scale freq ∧
        tensionFromMu gm.2 scale freq ≤ target.2) →
      (recommendGauge plainTab woundTab stype scale freq target ∈
          (classTable plainTab woundTab stype).map Prod.fst
        ∧ target.1 ≤ calcTensionT (classTable plainTab woundTab stype)
            (recommendGauge plainTab woundTab stype scale freq target)
            scale freq
        ∧ calcTensionT (classTable plainTab woundTab stype)
            (recommendGauge plainTab woundTab stype scale freq target)
            scale freq ≤ target.2
        ∧ ∀ q ∈ classTable plainTab woundTab stype,
            target.1 ≤ tensionFromMu q.2 scale freq →
            tensionFromMu q.2 scale freq ≤ target.2 →
            (|calcTensionT (classTable plainTab woundTab stype)
                (recommendGauge plainTab woundTab stype scale freq target)
                scale freq - (target.1 + target.2) / 2| ≤
              |tensionFromMu q.2 scale freq - (target.1 + target.2) / 2|
            ∧ (|tensionFromMu q.2 scale freq - (target.1 + target.2) / 2| =
                |calcTensionT (classTable plainTab woundTab stype)
                  (recommendGauge plainTab woundTab stype scale freq target)
                  scale freq - (target.1 + target.2) / 2| →
                recommendGauge plainTab woundTab stype scale freq target ≤
                  q.1))))
    ∧ ((∀ gm ∈ classTable plainTab woundTab stype,
          ¬(target.1 ≤ tensionFromMu gm.2 scale freq ∧
            tensionFromMu gm.2 scale freq ≤ target.2)) →
        classTable plainTab woundTab stype ≠ [] →
        (recommendGauge plainTab woundTab stype scale freq target ∈
            (classTable plainTab woundTab stype).map Prod.fst
          ∧ ∀ q ∈ classTable plainTab woundTab stype,
              |calcTensionT (classTable plainTab woundTab stype)
                (recommendGauge plainTab woundTab stype scale freq target)
                scale freq - (target.1 + target.2) / 2| ≤
                |tensionFromMu q.2 scale freq -
                  (target.1 + target.2) / 2|)) := by
  set cat := classTable plainTab woundTab stype with hcatdef
  have hnd : (cat.map Prod.fst).Nodup := nodup_keys_of_sorted hsorted
  constructor
  · intro hex
    rcases recommendGaugeT_inRange_correct cat scale freq target hsorted hex
      with ⟨gm, hgm, heq, hcond, hmin⟩
    have hrg : recommendGauge plainTab woundTab stype scale freq target =
        gm.1 := heq
    have hlook : lookupMu cat gm.1 = some gm.2 :=
      lookupMu_of_nodup_mem cat hnd (by rcases gm with ⟨g, mu⟩; exact hgm)
    have htens : calcTensionT cat
        (recommendGauge plainTab woundTab stype scale freq target)
        scale freq = tensionFromMu gm.2 scale freq := by
      rw [hrg]
      unfold calcTensionT
      rw [hlook]
      rfl
    refine ⟨?_, ?_, ?_, ?_⟩
    · rw [hrg]
      exact List.mem_map.mpr ⟨gm, hgm, rfl⟩
    · rw [htens]; exact hcond.1
    · rw [htens]; exact hcond.2
    · intro q hq hq1 hq2
      refine ⟨?_, ?_⟩
      · rw [htens]
        exact (hmin q hq hq1 hq2).1
      · intro htie
        rw [htens] at htie
        rw [hrg]
        exact (hmin q hq hq1 hq2).2 htie
  · intro hempty hne
    rcases recommendGaugeT_fallback_correct cat scale freq target hempty hne
      with ⟨gm, hgm, heq, hmin⟩
    have hrg : recommendGauge plainTab woundTab stype scale freq target =
        gm.1 := heq
    have hlook : lookupMu cat gm.1 = some gm.2 :=
      lookupMu_of_nodup_mem cat hnd (by rcases gm with ⟨g, mu⟩; exact hgm)
    have htens : calcTensionT cat
        (recommendGauge plainTab woundTab stype scale freq target)
        scale freq = tensionFromMu gm.2 scale freq := by
      rw [hrg]
      unfold calcTensionT
      rw [hlook]
      rfl
    refine ⟨?_, ?_⟩
    · rw [hrg]
      exact List.mem_map.mpr ⟨gm, hgm, rfl⟩
    · intro q hq
      rw [htens]
      exact hmin q hq

/-- Witness for C1 at a concrete catalog: with tensions 1 and 2 against the
target range [1, 3], the recommended gauge is a catalog member whose
tension lies inside the range. -/
theorem C1_recommendGauge_correct_witness :
    recommendGauge [(1, 483/5), (2, 966/5)] [] SType.p 1 1 (1, 3) ∈
        (([(1, 483/5), (2, 966/5)] : Catalog)).map Prod.fst
      ∧ 1 ≤ calcTensionT [(1, 483/5), (2, 966/5)]
          (recommendGauge [(1, 483/5), (2, 966/5)] [] SType.p 1 1 (1, 3)) 1 1
      ∧ calcTensionT [(1, 483/5), (2, 966/5)]
          (recommendGauge [(1, 483/5), (2, 966/5)] [] SType.p 1 1 (1, 3)) 1 1
          ≤ 3 := by
  have h := (C1_recommendGauge_correct [(1, 483/5), (2, 966/5)] [] SType.p
      1 1 (1, 3) (by norm_num [classTable])).1
    ⟨(2, 966/5), by simp [classTable], by norm_num [tensionFromMu]⟩
  exact ⟨h.1, h.2.1, h.2.2.1⟩

/-- C2: for every gauge present in the class's unit-weight table, and every
class, scale and frequency, `calcTension` returns exactly
`(2*scale*freq)^2 * μ / 386.4` with μ the stored unit weight. -/
theorem C2_calcTension_formula (plainTab woundTab : Catalog) (gauge : ℚ)
    (stype : SType) (scale freq mu : ℚ)
    (h : lookupMu (classTable plainTab woundTab stype) gauge = some mu) :
    calcTension plainTab woundTab gauge stype scale freq =
      (2 * scale * freq) ^ 2 * mu / (386.4 : ℚ) := by
  unfold calcTension calcTensionT
  rw [h]
  rfl

/-- Witness for C2 at a one-entry table. -/
theorem C2_calcTension_formula_witness :
    calcTension [(10, 3)] [] 10 SType.p 1 1 =
      (2 * 1 * 1) ^ 2 * 3 / (386.4 : ℚ) :=
  C2_calcTension_formula [(10, 3)] [] 10 SType.p 1 1 3 (by rfl)

/-- C6: for every gauge absent from the class's table, and every scale and
frequency, `calcTension` returns exactly 0; the lookup falls back to μ = 0
(the embedded function is total — no failure path exists). -/
theorem C6_missing_gauge_zero (plainTab woundTab : Catalog) (gauge : ℚ)
    (stype : SType) (scale freq : ℚ)
    (h : lookupMu (classTable plainTab woundTab stype) gauge = none) :
    calcTension plainTab woundTab gauge stype scale freq = 0 := by
  unfold calcTension calcTensionT tensionFromMu
  rw [h]
  simp

/-- Witness for C6: the empty table knows no gauge. -/
theorem C6_missing_gauge_zero_witness :
    calcTension [] [] 5 SType.p 1 1 = 0 :=
  C6_missing_gauge_zero [] [] 5 SType.p 1 1 (by rfl)

/-- C7: for every (treble, bass) pair and N ≥ 2, `resolveScales` returns N
lengths with element i equal to `treble + (bass - treble) * i / (N - 1)`;
element 0 is treble, element N-1 is bass, and for bass ≥ treble the values
are monotonically non-decreasing; a single scale value is repeated N
times. -/
theorem C7_resolveScales_interpolation (treble bass : ℚ) (n : ℕ)
    (hn : 2 ≤ n) :
    (resolveScales (.pair treble bass) n).length = n
    ∧ (∀ i, i < n → (resolveScales (.pair treble bass) n).getD i JSNum.nan =
        .num (treble + (bass - treble) * i / ((n : ℚ) - 1)))
    ∧ (resolveScales (.pair treble bass) n).getD 0 JSNum.nan = .num treble
    ∧ (resolveScales (.pair treble bass) n).getD (n - 1) JSNum.nan = .num bass
    ∧ (treble ≤ bass → ∀ i j, i ≤ j → j < n → ∀ u v : ℚ,
        (resolveScales (.pair treble bass) n).getD i JSNum.nan = .num u →
        (resolveScales (.pair treble bass) n).getD j JSNum.nan = .num v →
        u ≤ v)
    ∧ ∀ (s : ℚ) (m : ℕ),
        resolveScales (.single s) m = List.replicate m (.num s) := by
  have hden : ((n : ℚ) - 1) ≠ 0 := by
    have : (2 : ℚ) ≤ (n : ℚ) := by exact_mod_cast hn
    intro hz
    rw [sub_eq_zero] at hz
    rw [hz] at this
    norm_num at this
  have hlen : (resolveScales (.pair treble bass) n).length = n := by
    unfold resolveScales
    rw [List.length_map, List.length_range]
  have helem : ∀ i, i < n →
      (resolveScales (.pair treble bass) n).getD i JSNum.nan =
        .num (treble + (bass - treble) * i / ((n : ℚ) - 1)) := by
    intro i hi
    unfold resolveScales
    rw [List.getD_eq_getElem?_getD, List.getElem?_map, List.getElem?_range hi]
    simp only [Option.map_some', Option.getD_some]
    rw [jsSub_num, jsMul_num, jsDiv_num _ _ hden, jsAdd_num]
  refine ⟨hlen, helem, ?_, ?_, ?_, ?_⟩
  · rw [helem 0 (by omega)]
    norm_num
  · rw [helem (n - 1) (by omega)]
    have hcast : (((n - 1 : ℕ)) : ℚ) = (n : ℚ) - 1 := by
      have h1 : 1 ≤ n := by omega
      rw [Nat.cast_sub h1, Nat.cast_one]
    rw [hcast, mul_div_assoc, div_self hden]
    norm_num
  · intro hbt i j hij hj u v hu hv
    rw [helem i (by omega)] at hu
    rw [helem j (by omega)] at hv
    have hu' : u = treble + (bass - treble) * i / ((n : ℚ) - 1) := by
      injection hu.symm
    have hv' : v = treble + (bass - treble) * j / ((n : ℚ) - 1) := by
      injection hv.symm
    rw [hu', hv', div_eq_mul_inv, div_eq_mul_inv]
    have hpos : (0 : ℚ) < (n : ℚ) - 1 := by
      have : (2 : ℚ) ≤ (n : ℚ) := by exact_mod_cast hn
      linarith
    have hnum : (bass - treble) * (i : ℚ) ≤ (bass - treble) * (j : ℚ) := by
      apply mul_le_mul_of_nonneg_left _ (sub_nonneg.mpr hbt)
      exact_mod_cast hij
    have hinv : (0 : ℚ) ≤ ((n : ℚ) - 1)⁻¹ := le_of_lt (inv_pos.mpr hpos)
    have := mul_le_mul_of_nonneg_right hnum hinv
    linarith
  · intro s m
    rfl

/-- Witness for C7 at (25, 27) with six strings. -/
theorem C7_resolveScales_interpolation_witness :
    (resolveScales (.pair 25 27) 6).length = 6
    ∧ (resolveScales (.pair 25 27) 6).getD 0 JSNum.nan = .num 25
    ∧ (resolveScales (.pair 25 27) 6).getD 5 JSNum.nan = .num 27 := by
  have h := C7_resolveScales_interpolation 25 27 6 (by norm_num)
  exact ⟨h.1, h.2.2.1, h.2.2.2.1⟩

/-- C8 as stated is false: for a (treble, bass) pair and a single string the
interpolation evaluates `(bass - treble) * 0 / 0 = NaN`, so the one-element
result holds NaN, not the treble value. -/
theorem C8_counterexample :
    resolveScales (.pair 25 27) 1 ≠ [JSNum.num 25] := by
  have h : resolveScales (.pair 25 27) 1 = [JSNum.nan] := by
    show [jsAdd (JSNum.num 25)
      (jsDiv (jsMul (jsSub (JSNum.num 27) (JSNum.num 25))
        (JSNum.num ((0 : ℕ) : ℚ)))
        (JSNum.num (((1 : ℕ) : ℚ) - 1)))] = [JSNum.nan]
    simp [jsSub, jsMul, jsDiv, jsAdd]
  rw [h]
  simp

/-- C8 amended: for every (treble, bass) pair, `resolveScales` with one
string returns a one-element sequence containing NaN (the interpolation
divides zero by zero), not the treble value. -/
theorem C8_pair_one_string_nan (treble bass : ℚ) :
    resolveScales (.pair treble bass) 1 = [JSNum.nan] := by
  show [jsAdd (JSNum.num treble)
    (jsDiv (jsMul (jsSub (JSNum.num bass) (JSNum.num treble))
      (JSNum.num ((0 : ℕ) : ℚ)))
      (JSNum.num (((1 : ℕ) : ℚ) - 1)))] = [JSNum.nan]
  simp [jsSub, jsMul, jsDiv, jsAdd]

/-- C9 as stated is false: a present override is returned verbatim even when
its length differs from the string count, so the output need not have
exactly N entries. -/
theorem C9_counterexample :
    (resolveStringTypes (some [SType.p]) 3).length ≠ 3 := by
  decide

/-- C9 amended: a present override sequence is used verbatim (so the output
has N tags only when the override does); an absent override yields exactly
N tags, positions 0–2 plain and every position ≥ 3 wound. -/
theorem C9_resolveStringTypes (n : ℕ) :
    (∀ ts, resolveStringTypes (some ts) n = ts)
    ∧ (resolveStringTypes none n).length = n
    ∧ (∀ i, i < n → (resolveStringTypes none n).getD i SType.p =
        if i < 3 then SType.p else SType.w) := by
  refine ⟨fun ts => rfl, by simp [resolveStringTypes], ?_⟩
  intro i hi
  unfold resolveStringTypes
  rw [List.getD_eq_getElem?_getD, List.getElem?_map, List.getElem?_range hi]
  rfl

/-- Witness for C9 amended at N = 4. -/
theorem C9_resolveStringTypes_witness :
    resolveStringTypes (some [SType.w]) 4 = [SType.w]
    ∧ (resolveStringTypes none 4).getD 3 SType.p = SType.w := by
  refine ⟨(C9_resolveStringTypes 4).1 [SType.w], ?_⟩
  have h := (C9_resolveStringTypes 4).2.2 3 (by norm_num)
  simpa using h

/-- C10: `noteToFreq` splits every token at its final character — that
character alone is the octave, everything before it the note name; hence
"E10" is read as name "E1" with octave 0, yielding NaN rather than the
frequency of E in octave 10 (semitone offset 67). -/
theorem C10_noteToFreq_lastchar :
    (∀ (s : String) (c : Char),
      noteToFreq (s.push c) = noteToFreqCore s (parseIntDigit (String.mk [c])))
    ∧ noteToFreq "E10" = noteToFreqCore "E1" (some 0)
    ∧ noteToFreq "E10" = FreqVal.nan
    ∧ noteToFreq "E10" ≠ FreqVal.freq 67 := by
  refine ⟨?_, by decide, by decide, by decide⟩
  intro s c
  unfold noteToFreq lastCharSlice
  have h1 : (s.push c).toList = s.toList ++ [c] := rfl
  rw [h1, List.dropLast_concat, List.getLast?_concat]
  have h2 : String.mk s.toList = s := rfl
  rw [h2]

/-- C4 as stated is false: on a token with an unrecognized name the source
`noteToFreq` raises nothing — it silently evaluates to NaN (a returned
value), whereas the spec's PitchResolver (modelled as
`specPitchResolver`) fails with `InvalidNoteError` there. -/
theorem C4_counterexample :
    noteToFreq "H4" = FreqVal.nan
    ∧ specPitchResolver "H4" = Except.error "InvalidNoteError" := by
  exact ⟨by decide, by rfl⟩

/-- C4 amended: `noteToFreq` never raises; whenever the flat-normalized
name is not in `NOTE_INDEX` or the final character is not a digit, it
silently returns the NaN value. -/
theorem C4_noteToFreq_nan (note : String)
    (h : NOTE_INDEX.find?
        (fun e => e.1 = normalizeName (String.mk note.toList.dropLast)) = none
      ∨ parseIntDigit (lastCharSlice note) = none) :
    noteToFreq note = FreqVal.nan := by
  unfold noteToFreq noteToFreqCore
  rcases h with h | h
  · rw [h]
  · rw [h]
    cases NOTE_INDEX.find?
        (fun e => e.1 = normalizeName (String.mk note.toList.dropLast)) <;> rfl

/-- Witness for C4 amended: the unknown name "H". -/
theorem C4_noteToFreq_nan_witness : noteToFreq "H4" = FreqVal.nan :=
  C4_noteToFreq_nan "H4" (Or.inl (by decide))

/-! Section: Lemmas about buildGaugeUsages -/

/-- The usage-map key of a group (the string key in the source determines
exactly the (gauge, type) pair). -/
def keyOf (u : GaugeUsage) : ℚ × SType := (u.gauge, u.stype)

/-- Invariant of the first pass: group keys are unique and no swap option
has been attached yet. -/
def GoodGroups (groups : List GaugeUsage) : Prop :=
  (groups.map keyOf).Nodup ∧ ∀ u ∈ groups, u.swapOption = none

theorem sum_map_inc (g : ℚ) (t : SType) (info : UsageInfo) :
    ∀ (groups : List GaugeUsage), (groups.map keyOf).Nodup →
      groups.any (fun u => u.gauge = g ∧ u.stype = t) = true →
      sumCounts (groups.map (fun u =>
        if u.gauge = g ∧ u.stype = t then
          { u with count := u.count + 1, usages := u.usages ++ [info] }
        else u)) = sumCounts groups + 1 := by
  intro groups
  induction groups with
  | nil => intro _ hany; simp at hany
  | cons u us ih =>
      intro hnd hany
      have hnd' : (us.map keyOf).Nodup ∧ keyOf u ∉ us.map keyOf := by
        rw [List.map_cons, List.nodup_cons] at hnd
        exact ⟨hnd.2, hnd.1⟩
      by_cases hu : u.gauge = g ∧ u.stype = t
      · have hus : us.map (fun v =>
            if v.gauge = g ∧ v.stype = t then
              { v with count := v.count + 1, usages := v.usages ++ [info] }
            else v) = us.map id := by
          apply List.map_congr_left
          intro v hv
          rw [if_neg, id]
          intro hvmatch
          apply hnd'.2
          have : keyOf v = keyOf u := by
            unfold keyOf
            rw [hu.1, hu.2, hvmatch.1, hvmatch.2]
          rw [← this]
          exact List.mem_map.mpr ⟨v, hv, rfl⟩
        rw [List.map_cons, if_pos hu, hus, List.map_id]
        simp [sumCounts]
        omega
      · have hany' : us.any (fun v => v.gauge = g ∧ v.stype = t) = true := by
          rw [List.any_cons] at hany
          rcases Bool.or_eq_true_iff.mp hany with h | h
          · exfalso; exact hu (by simpa using h)
          · exact h
        rw [List.map_cons, if_neg hu]
        have := ih hnd'.1 hany'
        simp [sumCounts] at this ⊢
        omega

theorem addUsage_sum (groups : List GaugeUsage) (g : ℚ) (t : SType)
    (info : UsageInfo) (hnd : (groups.map keyOf).Nodup) :
    sumCounts (addUsage groups g t info) = sumCounts groups + 1 := by
  unfold addUsage
  by_cases hany : groups.any (fun u => u.gauge = g ∧ u.stype = t) = true
  · rw [if_pos hany]
    exact sum_map_inc g t info groups hnd hany
  · rw [if_neg hany]
    simp [sumCounts]

theorem addUsage_good (groups : List GaugeUsage) (g : ℚ) (t : SType)
    (info : UsageInfo) (hgood : GoodGroups groups) :
    GoodGroups (addUsage groups g t info) := by
  unfold addUsage
  by_cases hany : groups.any (fun u => u.gauge = g ∧ u.stype = t) = true
  · rw [if_pos hany]
    constructor
    · have : (groups.map (fun u =>
          if u.gauge = g ∧ u.stype = t then
            { u with count := u.count + 1, usages := u.usages ++ [info] }
          else u)).map keyOf = groups.map keyOf := by
        rw [List.map_map]
        apply List.map_congr_left
        intro v _
        by_cases hv : v.gauge = g ∧ v.stype = t
        · simp only [Function.comp, if_pos hv]; rfl
        · simp only [Function.comp, if_neg hv]
      rw [this]
      exact hgood.1
    · intro u hu
      rcases List.mem_map.mp hu with ⟨v, hv, hveq⟩
      by_cases hvm : v.gauge = g ∧ v.stype = t
      · rw [← hveq, if_pos hvm]
        exact hgood.2 v hv
      · rw [← hveq, if_neg hvm]
        exact hgood.2 v hv
  · rw [if_neg hany]
    constructor
    · rw [List.map_append]
      rw [List.nodup_append]
      refine ⟨hgood.1, by simp, ?_⟩
      intro k hk hk2
      simp only [List.map_cons, List.map_nil, List.mem_singleton] at hk2
      rcases List.mem_map.mp hk with ⟨v, hv, hveq⟩
      apply hany
      rw [List.any_eq_true]
      refine ⟨v, hv, ?_⟩
      have h1 : v.gauge = g ∧ v.stype = t := by
        have : keyOf v = (g, t) := by rw [hveq, hk2]; rfl
        unfold keyOf at this
        exact ⟨congrArg Prod.fst this, congrArg Prod.snd this⟩
      simp [h1.1, h1.2]
    · intro u hu
      rcases List.mem_append.mp hu with h | h
      · exact hgood.2 u h
      · simp only [List.mem_singleton] at h
        rw [h]

theorem foldl_addUsage_props :
    ∀ (entries : List (ℚ × SType × UsageInfo)) (groups : List GaugeUsage),
      GoodGroups groups →
      GoodGroups (entries.foldl (fun acc e => addUsage acc e.1 e.2.1 e.2.2)
          groups)
      ∧ sumCounts (entries.foldl (fun acc e => addUsage acc e.1 e.2.1 e.2.2)
          groups) = sumCounts groups + entries.length := by
  intro entries
  induction entries with
  | nil => intro groups hg; exact ⟨hg, by simp⟩
  | cons e es ih =>
      intro groups hg
      simp only [List.foldl_cons]
      have hg' := addUsage_good groups e.1 e.2.1 e.2.2 hg
      have hsum := addUsage_sum groups e.1 e.2.1 e.2.2 hg.1
      rcases ih (addUsage groups e.1 e.2.1 e.2.2) hg' with ⟨h1, h2⟩
      refine ⟨h1, ?_⟩
      rw [h2, hsum]
      simp
      omega

theorem insertByGauge_perm (u : GaugeUsage) :
    ∀ l : List GaugeUsage, (insertByGauge u l).Perm (u :: l) := by
  intro l
  induction l with
  | nil => exact List.Perm.refl _
  | cons v vs ih =>
      unfold insertByGauge
      by_cases hv : v.gauge ≤ u.gauge
      · rw [if_pos hv]
        exact ((ih).cons v).trans (List.Perm.swap u v vs)
      · rw [if_neg hv]

theorem sortByGauge_perm : ∀ l : List GaugeUsage, (sortByGauge l).Perm l := by
  intro l
  induction l with
  | nil => exact List.Perm.refl _
  | cons u us ih =>
      unfold sortByGauge
      exact (insertByGauge_perm u (sortByGauge us)).trans (ih.cons u)

theorem sumCounts_of_perm {l₁ l₂ : List GaugeUsage} (h : l₁.Perm l₂) :
    sumCounts l₁ = sumCounts l₂ := by
  unfold sumCounts
  exact (h.map (fun u => u.count)).sum_eq

theorem sumCounts_swapPass (plainTab woundTab : Catalog)
    (groups base : List GaugeUsage) :
    sumCounts (groups.map (fun u =>
      if u.count ≠ 1 then u
      else { u with swapOption := findSwap plainTab woundTab base u })) =
      sumCounts groups := by
  unfold sumCounts
  rw [List.map_map]
  apply congrArg
  apply List.map_congr_left
  intro v _
  by_cases hv : v.count ≠ 1
  · simp only [Function.comp, if_pos hv]
  · simp only [Function.comp, if_neg hv]

theorem length_filterMap_of_forall_some {α β : Type} (f : α → Option β) :
    ∀ l : List α, (∀ x ∈ l, (f x).isSome) → (l.filterMap f).length = l.length := by
  intro l
  induction l with
  | nil => intro _; rfl
  | cons x xs ih =>
      intro h
      rw [List.filterMap_cons]
      cases hfx : f x with
      | none =>
          exfalso
          have := h x (List.mem_cons_self _ _)
          rw [hfx] at this
          simp at this
      | some b =>
          rw [List.length_cons, ih (fun y hy => h y (List.mem_cons.mpr
            (Or.inr hy)))]
          rfl

theorem snd_mem_of_mem_enum {α : Type} {l : List α} {i : ℕ} {x : α}
    (h : (i, x) ∈ l.enum) : x ∈ l := by
  have hmap := List.enum_map_snd l
  rw [← hmap]
  exact List.mem_map.mpr ⟨(i, x), h, rfl⟩

theorem guitarEntries_length (sels : Selections) (freqOf : String → JSNum)
    (gIdx : ℕ) (guitar : Guitar)
    (hlen : (sels.getD gIdx []).length = guitar.n_strings)
    (hall : ∀ x ∈ sels.getD gIdx [], ∃ s, x = some s ∧ s.gauge ≠ 0) :
    (guitarEntries sels freqOf gIdx guitar).length = guitar.n_strings := by
  simp only [guitarEntries]
  rw [length_filterMap_of_forall_some, List.enum_length]
  · exact hlen
  · intro si hsi
    have hx : si.2 ∈ sels.getD gIdx [] := by
      rcases si with ⟨i, x⟩
      exact snd_mem_of_mem_enum hsi
    rcases hall si.2 hx with ⟨s, hs, hg⟩
    rw [hs]
    simp [hg]

theorem usageEntries_length_full (guitars : List Guitar) (sels : Selections)
    (freqOf : String → JSNum)
    (hcov : ∀ i (hi : i < guitars.length),
      (sels.getD i []).length = (guitars.get ⟨i, hi⟩).n_strings ∧
      ∀ x ∈ sels.getD i [], ∃ s, x = some s ∧ s.gauge ≠ 0) :
    (usageEntries guitars sels freqOf).length = totalStrings guitars := by
  unfold usageEntries
  rw [List.length_flatMap]
  have hpt : ∀ gi ∈ guitars.enum,
      (List.length ∘ fun gi : ℕ × Guitar =>
        guitarEntries sels freqOf gi.1 gi.2) gi
        = (fun gi : ℕ × Guitar => gi.2.n_strings) gi := by
    intro gi hgi
    rcases gi with ⟨i, g⟩
    have hig := List.mem_enum hgi
    simp only [Function.comp]
    apply guitarEntries_length
    · rw [(hcov i hig.1).1]
      exact congrArg Guitar.n_strings hig.2.symm
    · exact (hcov i hig.1).2
  rw [List.map_congr_left hpt]
  have hmm : guitars.enum.map (fun gi : ℕ × Guitar => gi.2.n_strings)
      = guitars.map (fun g => g.n_strings) := by
    rw [show (fun gi : ℕ × Guitar => gi.2.n_strings)
        = (fun g : Guitar => g.n_strings) ∘ Prod.snd from rfl]
    rw [← List.map_map, List.enum_map_snd]
  rw [hmm]
  rfl

/-- C5 amended: the sum of all UsageGroup counts equals the number of
selection entries that are present with a nonzero gauge (the loop bound is
the selection list, not the string count); when every string position of
every instrument carries such a selection, that sum equals the total number
of strings; and a swap suggestion is only ever attached to a group whose
count is exactly 1. -/
theorem C5_buildGaugeUsages (plainTab woundTab : Catalog)
    (guitars : List Guitar) (sels : Selections) (freqOf : String → JSNum) :
    sumCounts (buildGaugeUsages plainTab woundTab guitars sels freqOf) =
        (usageEntries guitars sels freqOf).length
    ∧ ((∀ i (hi : i < guitars.length),
          (sels.getD i []).length = (guitars.get ⟨i, hi⟩).n_strings ∧
          ∀ x ∈ sels.getD i [], ∃ s, x = some s ∧ s.gauge ≠ 0) →
        sumCounts (buildGaugeUsages plainTab woundTab guitars sels freqOf) =
          totalStrings guitars)
    ∧ (∀ u ∈ buildGaugeUsages plainTab woundTab guitars sels freqOf,
        u.swapOption.isSome → u.count = 1) := by
  have hfold := foldl_addUsage_props (usageEntries guitars sels freqOf) []
    ⟨by simp [keyOf], by simp⟩
  have hsum1 : sumCounts (buildGaugeUsages plainTab woundTab guitars sels
      freqOf) = (usageEntries guitars sels freqOf).length := by
    unfold buildGaugeUsages
    rw [sumCounts_of_perm (sortByGauge_perm _), sumCounts_swapPass,
      hfold.2]
    simp [sumCounts]
  refine ⟨hsum1, ?_, ?_⟩
  · intro hcov
    rw [hsum1]
    exact usageEntries_length_full guitars sels freqOf hcov
  · intro u hu hsome
    unfold buildGaugeUsages at hu
    have hu2 := (sortByGauge_perm _).mem_iff.mp hu
    rcases List.mem_map.mp hu2 with ⟨v, hv, hveq⟩
    by_cases hc : v.count ≠ 1
    · exfalso
      rw [← hveq, if_pos hc] at hsome
      rw [hfold.1.2 v hv] at hsome
      simp at hsome
    · rw [← hveq, if_neg hc]
      simpa using not_ne_iff.mp hc

/-- C5 as stated is false: with a one-string instrument and an empty
selection set, the groups are empty and the count sum is 0, not the total
string count 1 — the analysis only counts strings that currently carry a
selection with a nonzero gauge. -/
theorem C5_counterexample :
    ¬ (sumCounts (buildGaugeUsages [] []
        [{ name := "g", n_strings := 1, scale := .single 25,
           tuning := ["E2"], string_types := none, target_plain := (13, 16),
           target_wound := (16, 20) }] [] (fun _ => JSNum.nan)) =
      totalStrings
        [{ name := "g", n_strings := 1, scale := .single 25,
           tuning := ["E2"], string_types := none, target_plain := (13, 16),
           target_wound := (16, 20) }]) := by
  decide

/-- Witness for C5 amended: one instrument, one string, fully selected. -/
theorem C5_buildGaugeUsages_witness :
    sumCounts (buildGaugeUsages [] []
      [{ name := "g", n_strings := 1, scale := .single 25,
         tuning := ["E2"], string_types := none, target_plain := (13, 16),
         target_wound := (16, 20) }]
      [[some { gauge := 10, stype := SType.p }]] (fun _ => JSNum.nan)) =
      totalStrings
        [{ name := "g", n_strings := 1, scale := .single 25,
           tuning := ["E2"], string_types := none, target_plain := (13, 16),
           target_wound := (16, 20) }] := by
  apply (C5_buildGaugeUsages [] [] _ _ _).2.1
  intro i hi
  have hi0 : i = 0 := by
    simp only [List.length_cons, List.length_nil] at hi
    omega
  subst hi0
  refine ⟨rfl, ?_⟩
  intro x hx
  simp only [List.getD] at hx
  have hx2 : x = some { gauge := 10, stype := SType.p } := by
    simpa using hx
  exact ⟨{ gauge := 10, stype := SType.p }, hx2, by norm_num⟩

/-! Section: Lemmas about the modelled GlobalOptimizer -/

theorem dedup_length_le_of_subset {α : Type} [DecidableEq α]
    {l₁ l₂ : List α} (h : l₁ ⊆ l₂) : l₁.dedup.length ≤ l₂.dedup.length := by
  rw [← List.card_toFinset, ← List.card_toFinset]
  apply Finset.card_le_card
  intro x hx
  rw [List.mem_toFinset] at hx ⊢
  exact h hx

theorem bestSwapGauge_mem (plainTab woundTab : Catalog) (l : Assignment)
    (c : StrCtx) (selfGauge g' : ℚ)
    (h : bestSwapGauge plainTab woundTab l c selfGauge = some g') :
    g' ∈ commonCandidates l c.stype selfGauge := by
  unfold bestSwapGauge at h
  cases hcand : commonCandidates l c.stype selfGauge with
  | nil => rw [hcand] at h; simp at h
  | cons c0 cs =>
      rw [hcand] at h
      simp only [Option.some_inj] at h
      rw [← h]
      simp only [List.foldl_cons]
      rw [show pickStep (fun g =>
          |strTension plainTab woundTab c g -
            strTension plainTab woundTab c selfGauge|) c0 c0 = c0 from by
        unfold pickStep; rw [if_neg (lt_irrefl _)]]
      exact foldl_pickStep_mem _ cs c0

theorem commonCandidates_spec (l : Assignment) (st : SType) (g0 g' : ℚ)
    (h : g' ∈ commonCandidates l st g0) :
    1 < (pairsOf l).count (g', st) := by
  unfold commonCandidates at h
  rcases List.mem_map.mp h with ⟨pr, hpr, hpr1⟩
  rcases List.mem_filter.mp hpr with ⟨_, hdec⟩
  have hcond := of_decide_eq_true hdec
  have hpr2 : pr = (g', st) := by
    rcases pr with ⟨a, b⟩
    simp only at hpr1
    rw [Prod.mk.injEq]
    exact ⟨hpr1, hcond.1⟩
  rw [← hpr2]
  exact hcond.2.2

theorem trySwapAt_subset (plainTab woundTab : Catalog) (l : Assignment)
    (i : ℕ) (l' : Assignment)
    (h : trySwapAt plainTab woundTab l i = some l') :
    pairsOf l' ⊆ pairsOf l := by
  unfold trySwapAt at h
  cases hget : l.get? i with
  | none => rw [hget] at h; simp at h
  | some e =>
      rw [hget] at h
      dsimp only at h
      by_cases hcount : (pairsOf l).count (e.2, e.1.stype) = 1
      · rw [if_pos hcount] at h
        cases hbest : bestSwapGauge plainTab woundTab l e.1 e.2 with
        | none => rw [hbest] at h; simp at h
        | some g' =>
            rw [hbest] at h
            dsimp only at h
            by_cases hin : ctxInRange plainTab woundTab e.1 g'
            · rw [if_pos hin] at h
              simp only [Option.some_inj] at h
              have hcnt : 1 < (pairsOf l).count (g', e.1.stype) :=
                commonCandidates_spec l e.1.stype e.2 g'
                  (bestSwapGauge_mem plainTab woundTab l e.1 e.2 g' hbest)
              intro x hx
              rw [← h] at hx
              unfold pairsOf at hx
              rw [List.map_set] at hx
              rcases List.mem_or_eq_of_mem_set hx with h1 | h1
              · exact h1
              · rw [h1]
                have : 0 < (pairsOf l).count (g', e.1.stype) := by omega
                exact List.count_pos_iff.mp this
            · rw [if_neg hin] at h
              simp at h
      · rw [if_neg hcount] at h
        simp at h

theorem distinctCount_consolidateOnce (plainTab woundTab : Catalog)
    (l l' : Assignment)
    (h : consolidateOnce plainTab woundTab l = some l') :
    distinctCount l' ≤ distinctCount l := by
  unfold consolidateOnce at h
  rcases List.exists_of_findSome?_eq_some h with ⟨i, _, hswap⟩
  exact dedup_length_le_of_subset
    (trySwapAt_subset plainTab woundTab l i l' hswap)

theorem distinctCount_consolidate (plainTab woundTab : Catalog) :
    ∀ (fuel : ℕ) (l : Assignment),
      distinctCount (consolidate plainTab woundTab fuel l) ≤
        distinctCount l := by
  intro fuel
  induction fuel with
  | zero => intro l; exact le_refl _
  | succ n ih =>
      intro l
      unfold consolidate
      cases honce : consolidateOnce plainTab woundTab l with
      | none => exact le_refl _
      | some l' =>
          exact le_trans (ih l')
            (distinctCount_consolidateOnce plainTab woundTab l l' honce)

theorem repair_eq_self (plainTab woundTab : Catalog) (l : Assignment)
    (h : ∀ e ∈ l, ctxInRange plainTab woundTab e.1 e.2) :
    repair plainTab woundTab l = l := by
  unfold repair
  have hcongr : l.map (fun e =>
      if ctxInRange plainTab woundTab e.1 e.2 then e
      else (e.1, recommendGauge plainTab woundTab e.1.stype e.1.scale
        e.1.freq e.1.target)) = l.map id := by
    apply List.map_congr_left
    intro e he
    rw [if_pos (h e he)]
    rfl
  rw [hcongr, List.map_id]

/-- C3 amended: the consolidation passes of the optimizer never increase the
number of distinct (gauge, class) pairs, and whenever every string of the
input selection set is already within its target range (so the repair pass
changes nothing), the full `optimize` satisfies the claimed monotonicity; the
repair pass itself may increase the distinct count when it must fix an
out-of-range string. -/
theorem C3_optimize_distinct (plainTab woundTab : Catalog) :
    (∀ (fuel : ℕ) (l : Assignment),
      distinctCount (consolidate plainTab woundTab fuel l) ≤
        distinctCount l)
    ∧ (∀ l : Assignment,
        (∀ e ∈ l, ctxInRange plainTab woundTab e.1 e.2) →
        distinctCount (optimize plainTab woundTab l) ≤ distinctCount l) := by
  refine ⟨distinctCount_consolidate plainTab woundTab, ?_⟩
  intro l hin
  unfold optimize
  rw [repair_eq_self plainTab woundTab l hin]
  exact distinctCount_consolidate plainTab woundTab l.length l

/-- C3 as stated is false on the spec's algorithm: the repair pass replaces
an out-of-range string's gauge with a fresh recommendation, which can
introduce a (gauge, class) pair that was not in use — here two strings share
gauge 1 (distinct count 1), one is out of range and gets gauge 2, and no
consolidating swap can undo it, leaving distinct count 2. -/
theorem C3_counterexample :
    ¬ (distinctCount (optimize [(1, 483/5), (2, 966/5)] []
        [((⟨SType.p, 1, 1, (1, 1)⟩ : StrCtx), (1 : ℚ)),
         (⟨SType.p, 1, 1, (2, 2)⟩, 1)]) ≤
      distinctCount
        [((⟨SType.p, 1, 1, (1, 1)⟩ : StrCtx), (1 : ℚ)),
         (⟨SType.p, 1, 1, (2, 2)⟩, 1)]) := by
  have hT1 : tensionFromMu (483/5) 1 1 = 1 := by norm_num [tensionFromMu]
  have hT2 : tensionFromMu (966/5) 1 1 = 2 := by norm_num [tensionFromMu]
  have hlook1 : lookupMu [(1, 483/5), (2, 966/5)] 1 = some (483/5) := rfl
  have hTA : strTension [(1, 483/5), (2, 966/5)] []
      (⟨SType.p, 1, 1, (1, 1)⟩ : StrCtx) 1 = 1 := by
    unfold strTension calcTension calcTensionT
    dsimp only
    rw [show classTable [(1, 483/5), (2, 966/5)] [] SType.p =
      [(1, 483/5), (2, 966/5)] from rfl, hlook1]
    exact hT1
  have hTB : strTension [(1, 483/5), (2, 966/5)] []
      (⟨SType.p, 1, 1, (2, 2)⟩ : StrCtx) 1 = 1 := by
    unfold strTension calcTension calcTensionT
    dsimp only
    rw [show classTable [(1, 483/5), (2, 966/5)] [] SType.p =
      [(1, 483/5), (2, 966/5)] from rfl, hlook1]
    exact hT1
  have hctxA : ctxInRange [(1, 483/5), (2, 966/5)] []
      (⟨SType.p, 1, 1, (1, 1)⟩ : StrCtx) 1 := by
    unfold ctxInRange
    rw [hTA]
    norm_num
  have hctxB : ¬ ctxInRange [(1, 483/5), (2, 966/5)] []
      (⟨SType.p, 1, 1, (2, 2)⟩ : StrCtx) 1 := by
    unfold ctxInRange
    rw [hTB]
    norm_num
  have hIRL : inRangeList [(1, 483/5), (2, 966/5)] 1 1 2 2 = [(2, 2)] := by
    unfold inRangeList
    rw [List.filter_cons, List.filter_cons, List.filter_nil]
    simp only [hT1, hT2]
    norm_num
    exact hT2
  have hrg : recommendGauge [(1, 483/5), (2, 966/5)] [] SType.p 1 1 (2, 2)
      = 2 := by
    unfold recommendGauge
    rw [show classTable [(1, 483/5), (2, 966/5)] [] SType.p =
      [(1, 483/5), (2, 966/5)] from rfl]
    rw [recommendGaugeT_of_inRange _ 1 1 (2, 2) hIRL]
    rfl
  have hrep : repair [(1, 483/5), (2, 966/5)] []
      [((⟨SType.p, 1, 1, (1, 1)⟩ : StrCtx), (1 : ℚ)),
       (⟨SType.p, 1, 1, (2, 2)⟩, 1)] =
      [((⟨SType.p, 1, 1, (1, 1)⟩ : StrCtx), (1 : ℚ)),
       (⟨SType.p, 1, 1, (2, 2)⟩, 2)] := by
    unfold repair
    rw [List.map_cons, List.map_cons, List.map_nil]
    dsimp only
    rw [if_pos hctxA, if_neg hctxB, hrg]
  have honce : consolidateOnce [(1, 483/5), (2, 966/5)] []
      [((⟨SType.p, 1, 1, (1, 1)⟩ : StrCtx), (1 : ℚ)),
       (⟨SType.p, 1, 1, (2, 2)⟩, 2)] = none := by
    decide
  have hcons : consolidate [(1, 483/5), (2, 966/5)] [] 2
      [((⟨SType.p, 1, 1, (1, 1)⟩ : StrCtx), (1 : ℚ)),
       (⟨SType.p, 1, 1, (2, 2)⟩, 2)] =
      [((⟨SType.p, 1, 1, (1, 1)⟩ : StrCtx), (1 : ℚ)),
       (⟨SType.p, 1, 1, (2, 2)⟩, 2)] := by
    show (match consolidateOnce [(1, 483/5), (2, 966/5)] []
        [((⟨SType.p, 1, 1, (1, 1)⟩ : StrCtx), (1 : ℚ)),
         (⟨SType.p, 1, 1, (2, 2)⟩, 2)] with
      | some l' => consolidate [(1, 483/5), (2, 966/5)] [] 1 l'
      | none => [((⟨SType.p, 1, 1, (1, 1)⟩ : StrCtx), (1 : ℚ)),
                 (⟨SType.p, 1, 1, (2, 2)⟩, 2)]) =
      [((⟨SType.p, 1, 1, (1, 1)⟩ : StrCtx), (1 : ℚ)),
       (⟨SType.p, 1, 1, (2, 2)⟩, 2)]
    rw [honce]
  have hopt : optimize [(1, 483/5), (2, 966/5)] []
      [((⟨SType.p, 1, 1, (1, 1)⟩ : StrCtx), (1 : ℚ)),
       (⟨SType.p, 1, 1, (2, 2)⟩, 1)] =
      [((⟨SType.p, 1, 1, (1, 1)⟩ : StrCtx), (1 : ℚ)),
       (⟨SType.p, 1, 1, (2, 2)⟩, 2)] := by
    unfold optimize
    rw [hrep]
    exact hcons
  intro hle
  rw [hopt] at hle
  have hd2 : distinctCount
      [((⟨SType.p, 1, 1, (1, 1)⟩ : StrCtx), (1 : ℚ)),
       (⟨SType.p, 1, 1, (2, 2)⟩, 2)] = 2 := by decide
  have hd1 : distinctCount
      [((⟨SType.p, 1, 1, (1, 1)⟩ : StrCtx), (1 : ℚ)),
       (⟨SType.p, 1, 1, (2, 2)⟩, 1)] = 1 := by decide
  rw [hd1, hd2] at hle
  exact absurd hle (by norm_num)

/-- Witness for C3 amended: an all-in-range selection set is untouched by
repair, and consolidation cannot raise the distinct-pair count. -/
theorem C3_optimize_distinct_witness :
    distinctCount (optimize [(1, 483/5)] []
      [((⟨SType.p, 1, 1, (1, 1)⟩ : StrCtx), (1 : ℚ)),
       (⟨SType.p, 1, 1, (1, 1)⟩, 1)]) ≤
    distinctCount
      [((⟨SType.p, 1, 1, (1, 1)⟩ : StrCtx), (1 : ℚ)),
       (⟨SType.p, 1, 1, (1, 1)⟩, 1)] := by
  apply (C3_optimize_distinct [(1, 483/5)] []).2
  intro e he
  have hT : strTension [(1, 483/5)] [] (⟨SType.p, 1, 1, (1, 1)⟩ : StrCtx) 1
      = 1 := by
    unfold strTension calcTension calcTensionT
    dsimp only
    rw [show classTable [(1, 483/5)] [] SType.p = [(1, 483/5)] from rfl]
    rw [show lookupMu [(1, 483/5)] 1 = some (483/5) from rfl]
    norm_num [tensionFromMu]
  have he2 : e = ((⟨SType.p, 1, 1, (1, 1)⟩ : StrCtx), (1 : ℚ)) := by
    rcases List.mem_cons.mp he with h | h
    · exact h
    · rcases List.mem_cons.mp h with h2 | h2
      · exact h2
      · simp at h2
  rw [he2]
  unfold ctxInRange
  rw [hT]
  norm_num

end StringTensionCalc
